import Mathlib

/-!
Shallow embedding of the integer-grid LP solvers of `brute_force_lp`
(`core.py` and `friendly.py`).

Conventions of the embedding:
* Python dicts whose values are numbers are association lists; `d[k]` (which
  raises `KeyError` on a missing key) is `List.lookup` composed with `Option`
  bind, and `d.get(k, 0)` is `(List.lookup ...).getD 0`.
* Python floats are modelled by an arbitrary linear ordered commutative ring `α` (e.g. `ℚ`); variable values are `Nat`.
* A raised exception is `Option.none` / `Except.error`.  The sentinel
  `-float("inf")` objective of `core.brute_force_lp` and the
  `best_soln = None` of `friendly.brute_force_lp_friendly` are modelled by
  the `none` case of an `Option (Assignment × α)` best record: the best
  objective and best assignment are set together in the source, so the pair
  is `none` exactly while the sentinel/`None` is live.  The dict the plain
  report indexes (`trial | {"objective": obj}`) is modelled explicitly by
  `coreBestDict`, with `-float("inf")` as `⊥ : WithBot α`, so the
  sentinel's real `"objective"` key is kept.
* `numpy`'s seeded generator is an abstract draw function
  `Nat → Nat → Nat → Nat` taking the sample index, the variable position and
  the inclusive upper bound; `pandas.DataFrame.sort_values` on the
  `objective` column is a sort by descending objective, and on a frame with
  no rows (hence no `objective` column) it is a `KeyError`.
-/

variable {α : Type} [LinearOrderedCommRing α]

/-- A coefficient mapping `{var: float}` from the LP JSON. -/
abbrev CoeffMap (α : Type) := List (String × α)

/-- A (possibly partial) variable assignment, a Python dict `{var: int}`. -/
abbrev Assignment := List (String × Nat)

/-- One entry of `lp["vars"]`: a variable name with its upper bound. -/
structure VarSpec where
  name : String
  ub : Nat
deriving DecidableEq

/-- `lp["objective"]`: optional sense (default `"max"`) and coefficients. -/
structure Objective (α : Type) where
  sense : Option String
  coeff : CoeffMap α
deriving DecidableEq

/-- One entry of `lp["constraints"]`: name, coefficients, optional sense
(default `"<="`), right-hand side. -/
structure Constraint (α : Type) where
  name : String
  coeff : CoeffMap α
  sense : Option String
  rhs : α
deriving DecidableEq

/-- The parsed LP JSON consumed by both solvers. -/
structure LP (α : Type) where
  vars : List VarSpec
  objective : Objective α
  constraints : List (Constraint α)
deriving DecidableEq

/-- The errors the embedded functions can raise: a Python `KeyError`
(missing dict key / missing DataFrame column), or the
`ValueError("No feasible solution found.")` of the friendly solver. -/
inductive Err where
  | keyError : Err
  | infeasible : Err
deriving DecidableEq

/-- `list(lp["vars"].keys())` — declaration order of the variables. -/
def varNames (lp : LP α) : List String := lp.vars.map VarSpec.name

/-- `[lp["vars"][v]["ub"] for v in vars_]`. -/
def boundsOf (lp : LP α) : List Nat := lp.vars.map VarSpec.ub

/-- `range(0, ub + 1, step)`: the values `0, step, 2*step, …` up to `ub`. -/
def gridRange (ub step : Nat) : List Nat := List.range' 0 (ub / step + 1) step

/-- `itertools.product(*(range(0, ub + 1, step) for ub in bounds))`, first
variable outermost — also the enumeration order of the recursive
`recurse` in `friendly.py`. -/
def combos (step : Nat) : List Nat → List (List Nat)
  | [] => [[]]
  | ub :: rest => (gridRange ub step).flatMap fun x => (combos step rest).map fun c => x :: c

/-- The complete trial assignments in enumeration order:
`dict(zip(vars_, combo))` for each combo. -/
def trials (lp : LP α) (step : Nat) : List Assignment :=
  (combos step (boundsOf lp)).map fun c => (varNames lp).zip c

/-- `sum` of a list of optionally-failing terms, in order; the Python
generator expression `sum(f(v) for v in vs)` where any term may raise. -/
def sumTerms? {β : Type} [Add β] [Zero β] (f : String → Option β) :
    List String → Option β
  | [] => some 0
  | v :: vs => do
    let t ← f v
    let rest ← sumTerms? f vs
    pure (t + rest)

/-- `sum(coeff[v] * a[v] for v in vars)` with *direct* dict indexing on both
the coefficient mapping and the assignment — raises (returns `none`) on a
missing key.  Used for every objective evaluation and for the constraint
sums of `core.py`. -/
def dotProduct? (coeff : CoeffMap α) (vars : List String) (a : Assignment) : Option α :=
  sumTerms? (fun v => do
    let c ← coeff.lookup v
    let x ← a.lookup v
    pure (c * (x : α))) vars

/-- `sum(coeff.get(v, 0) * a[v] for v in vars)`: missing coefficients count
as zero, but the assignment is still indexed directly.  This is the lhs of
`_feasible` and of the friendly report builder. -/
def lhsSense? (coeff : CoeffMap α) (vars : List String) (a : Assignment) : Option α :=
  sumTerms? (fun v => (a.lookup v).map fun x => (coeff.lookup v).getD 0 * (x : α)) vars

/-- The total weighted sum `Σ coeff[v] * a[v]` over the declared variables,
missing entries of either mapping counting as zero.  On complete inputs the
partial evaluators above agree with it. -/
def lhsVal (coeff : CoeffMap α) (vars : List String) (a : Assignment) : α :=
  (vars.map fun v => (coeff.lookup v).getD 0 * (((a.lookup v).getD 0 : Nat) : α)).sum

/-- `con.get("sense", "<=")`. -/
def senseOf (con : Constraint α) : String := con.sense.getD "<="

/-- `_feasible` of `friendly.py`: walk the constraints in order and return
`False` at the first violated one, `True` otherwise.  Any lookup failure
aborts the whole evaluation. -/
def _feasible (trial : Assignment) (constraints : List (Constraint α)) (vars : List String) :
    Option Bool :=
  match constraints with
  | [] => some true
  | con :: rest => do
    let lhs ← lhsSense? con.coeff vars trial
    let s := senseOf con
    if (s == "<=" && decide (lhs > con.rhs)) ||
        (s == ">=" && decide (lhs < con.rhs)) ||
        (s == "=" && decide (lhs ≠ con.rhs)) then
      pure false
    else
      _feasible trial rest vars

/-- `str.lower()` on ASCII sense strings: character-wise lowercasing
(the library `String.toLower`, written out so concrete evaluation
reduces). -/
def pyLower (s : String) : String := ⟨s.data.map Char.toLower⟩

/-- `lp["objective"].get("sense", "max").lower()`. -/
def objSense (lp : LP α) : String := pyLower (lp.objective.sense.getD "max")

/-- Objective evaluation `sum(lp["objective"]["coeff"][v] * trial[v] for v
in vars_)` — direct indexing, shared verbatim by both solver variants. -/
def objOf? (lp : LP α) (a : Assignment) : Option α :=
  dotProduct? lp.objective.coeff (varNames lp) a

/-- The total value of the objective on a complete assignment. -/
def objVal (lp : LP α) (a : Assignment) : α :=
  lhsVal lp.objective.coeff (varNames lp) a

/-- The friendly solver's best-record update: replace the running best when
the new objective is strictly better in the declared sense (`obj > best_obj`
for `max`, `obj < best_obj` otherwise); the `none` best is the initial
`-inf` / `+inf` sentinel, beaten by every finite objective. -/
def updBest (lp : LP α) (best : Option (Assignment × α)) (a : Assignment) (obj : α) :
    Option (Assignment × α) :=
  let better := match best with
    | none => true
    | some p => if objSense lp = "max" then decide (p.2 < obj) else decide (obj < p.2)
  if better then some (a, obj) else best

/-- One complete trial of the friendly search: feasibility test, then
objective and best-record update for feasible trials. -/
def searchStep (lp : LP α) (best : Option (Assignment × α)) (a : Assignment) :
    Option (Option (Assignment × α)) := do
  let feas ← _feasible a lp.constraints (varNames lp)
  if feas then do
    let obj ← objOf? lp a
    pure (updBest lp best a obj)
  else
    pure best

/-- The friendly search over a list of trials in enumeration order. -/
def searchLoop (lp : LP α) : List Assignment → Option (Assignment × α) →
    Option (Option (Assignment × α))
  | [], best => some best
  | a :: rest, best => do
    let b ← searchStep lp best a
    searchLoop lp rest b

/-- One row of the friendly constraint report. -/
structure ReportRow (α : Type) where
  constraint : String
  lhs : α
  rhs : α
  sense : String
  slack : α
deriving DecidableEq

/-- One report row of `brute_force_lp_friendly`: lhs with `.get(v, 0)`
coefficients, slack `rhs - lhs` for `<=`, `lhs - rhs` for `>=`, else `0`. -/
def reportRow? (vars : List String) (a : Assignment) (con : Constraint α) :
    Option (ReportRow α) := do
  let lhs ← lhsSense? con.coeff vars a
  let s := senseOf con
  pure ⟨con.name, lhs, con.rhs, s,
    if s = "<=" then con.rhs - lhs else if s = ">=" then lhs - con.rhs else 0⟩

/-- The friendly report: one row per constraint, in constraint order. -/
def buildReport (vars : List String) (a : Assignment) :
    List (Constraint α) → Option (List (ReportRow α))
  | [] => some []
  | con :: rest => do
    let r ← reportRow? vars a con
    let rs ← buildReport vars a rest
    pure (r :: rs)

/-- `brute_force_lp_friendly` of `friendly.py`: exhaustive sense-aware
search; raises `ValueError` (`Err.infeasible`) when no trial is feasible,
otherwise returns the best assignment, its objective, and the report.
The progress printing does not affect the returned value and is omitted. -/
def brute_force_lp_friendly (lp : LP α) (step : Nat) :
    Except Err (Assignment × α × List (ReportRow α)) :=
  match searchLoop lp (trials lp step) none with
  | none => .error .keyError
  | some none => .error .infeasible
  | some (some (a, obj)) =>
    match buildReport (varNames lp) a lp.constraints with
    | none => .error .keyError
    | some rep => .ok (a, obj, rep)

/-- The plain solver's feasibility loop (`core.py`): direct-indexed lhs and
the test `lhs > rhs` for every constraint, whatever its declared sense. -/
def coreFeasible (vars : List String) (a : Assignment) : List (Constraint α) → Option Bool
  | [] => some true
  | con :: rest => do
    let lhs ← dotProduct? con.coeff vars a
    if lhs > con.rhs then pure false else coreFeasible vars a rest

/-- The plain solver's enumeration loop: best starts as the sentinel
`{"objective": -float("inf")}` (`none`), and the comparison is always
`obj > best["objective"]`. -/
def coreLoop (lp : LP α) : List Assignment → Option (Assignment × α) →
    Option (Option (Assignment × α))
  | [], best => some best
  | a :: rest, best => do
    let feas ← coreFeasible (varNames lp) a lp.constraints
    if feas then do
      let obj ← objOf? lp a
      let better := match best with
        | none => true
        | some p => decide (p.2 < obj)
      coreLoop lp rest (if better then some (a, obj) else best)
    else
      coreLoop lp rest best

/-- The dict the plain solver's report indexes into, namely
`trial | {"objective": obj}`: every variable entry of the best trial
(its integer value cast into the arithmetic type) together with the key
`"objective"`, which the merge binds last — to the best objective, or to
`-float("inf")` in the untouched sentinel `{"objective": -float("inf")}`.
`-inf` is modelled as `⊥` of `WithBot α`; the override entry is listed
first so that association-list lookup agrees with Python dict lookup on
every key. -/
def coreBestDict (best : Option (Assignment × α)) : List (String × WithBot α) :=
  match best with
  | none => [("objective", (⊥ : WithBot α))]
  | some p => ("objective", ((p.2 : α) : WithBot α)) ::
      p.1.map fun q => (q.1, (((q.2 : Nat) : α) : WithBot α))

/-- One row of the plain report: constraint name, lhs, rhs (no sense, no
slack).  The lhs lives in `WithBot α` because the sentinel's `-inf` can
flow into it (only for a variable literally named `"objective"`). -/
structure CoreRow (α : Type) where
  constraint : String
  lhs : WithBot α
  rhs : α
deriving DecidableEq

/-- The report's `sum(con["coeff"][v] * best[v] for v in vars_)`: direct
indexing into both the coefficient mapping and the merged best dict.
Arithmetic is in `WithBot α`, where `⊥ + x = ⊥` and `c * ⊥ = ⊥` for
`c ≠ 0` as for IEEE `-inf` (the `0 * ⊥ = 0` convention differs from
IEEE's NaN, but only the reported value, never the raise/return
behaviour, is affected). -/
def coreReportLhs? (coeff : CoeffMap α) (vars : List String)
    (d : List (String × WithBot α)) : Option (WithBot α) :=
  sumTerms? (fun v => do
    let c ← coeff.lookup v
    let x ← d.lookup v
    pure ((c : WithBot α) * x)) vars

/-- The plain report loop over the merged best dict. -/
def coreReport (vars : List String) (d : List (String × WithBot α)) :
    List (Constraint α) → Option (List (CoreRow α))
  | [] => some []
  | con :: rest => do
    let lhs ← coreReportLhs? con.coeff vars d
    let rs ← coreReport vars d rest
    pure (⟨con.name, lhs, con.rhs⟩ :: rs)

/-- `brute_force_lp` of `core.py`: sense-blind exhaustive search returning
the best record (`none` = the untouched `-inf` sentinel) and the lhs/rhs
report, or raising (`none`) on any failed dict lookup. -/
def brute_force_lp (lp : LP α) (step : Nat) :
    Option (Option (Assignment × α) × List (CoreRow α)) := do
  let best ← coreLoop lp (trials lp step) none
  let rows ← coreReport (varNames lp) (coreBestDict best) lp.constraints
  pure (best, rows)

/-- One row of the sampler's DataFrame: the drawn assignment with the
synthetic `objective` column attached. -/
structure SampleRow (α : Type) where
  assign : Assignment
  objective : α
deriving DecidableEq

/-- `{v: rng.integers(0, ub + 1) for v, ub in zip(vars_, bounds)}`: one draw
per variable, consumed in declaration order; `draw i j ub` abstracts the
seeded generator's `j`-th integer of sample `i`, a value in `[0, ub]`. -/
def sampleTrial (draw : Nat → Nat → Nat → Nat) (i : Nat) :
    Nat → List VarSpec → Assignment
  | _, [] => []
  | j, vd :: rest => (vd.name, draw i j vd.ub) :: sampleTrial draw i (j + 1) rest

/-- The sampler's draw-and-filter loop: keep each feasible draw (the plain
`lhs > rhs` test of `core.py`) with its objective attached, in draw order. -/
def sampleLoop (lp : LP α) (draw : Nat → Nat → Nat → Nat) :
    Nat → Nat → Option (List (SampleRow α))
  | 0, _ => some []
  | n + 1, i => do
    let a := sampleTrial draw i 0 lp.vars
    let feas ← coreFeasible (varNames lp) a lp.constraints
    if feas then do
      let obj ← objOf? lp a
      let rest ← sampleLoop lp draw n (i + 1)
      pure (⟨a, obj⟩ :: rest)
    else
      sampleLoop lp draw n (i + 1)

/-- Descending order on the `objective` column. -/
def sampleLE (r1 r2 : SampleRow α) : Prop := r2.objective ≤ r1.objective

instance : DecidableRel (@sampleLE α _) := fun r1 r2 =>
  inferInstanceAs (Decidable (r2.objective ≤ r1.objective))

instance : IsTotal (SampleRow α) (@sampleLE α _) :=
  ⟨fun a b => le_total b.objective a.objective⟩

instance : IsTrans (SampleRow α) (@sampleLE α _) :=
  ⟨fun _ _ _ h1 h2 => le_trans h2 h1⟩

/-- `sample_lp` of `core.py`:
`pd.DataFrame(rows).sort_values("objective", ascending=False).head(10)`.
On an empty `rows` the DataFrame has no `objective` column and
`sort_values` raises `KeyError`; otherwise the rows are sorted by
descending objective (modelled by insertion sort; the claims proved below
do not depend on the order among equal objectives) and truncated to 10. -/
def sample_lp (lp : LP α) (numSamples : Nat) (draw : Nat → Nat → Nat → Nat) :
    Except Err (List (SampleRow α)) :=
  match sampleLoop lp draw numSamples 0 with
  | none => .error .keyError
  | some rows =>
    if rows.isEmpty then .error .keyError
    else .ok ((rows.insertionSort sampleLE).take 10)

/-! ### Totality and evaluation lemmas for the partial sums -/

/-- A successful partial sum forces every term to be present, and its value
is the sum of the present terms. -/
theorem sumTerms?_some {f : String → Option α} :
    ∀ {vs : List String} {q : α}, sumTerms? f vs = some q →
      (∀ v ∈ vs, (f v).isSome = true) ∧ q = (vs.map fun v => (f v).getD 0).sum := by
  intro vs
  induction vs with
  | nil =>
    intro q h
    simp [sumTerms?] at h
    simp [← h]
  | cons v vs ih =>
    intro q h
    simp only [sumTerms?] at h
    cases hfv : f v with
    | none => rw [hfv] at h; simp at h
    | some t =>
      rw [hfv] at h
      cases hrest : sumTerms? f vs with
      | none => rw [hrest] at h; simp at h
      | some r =>
        rw [hrest] at h
        simp at h
        obtain ⟨hall, hr⟩ := ih hrest
        refine ⟨?_, ?_⟩
        · intro v' hv'
          rcases List.mem_cons.mp hv' with h' | h'
          · subst h'; simp [hfv]
          · exact hall v' h'
        · simp [hfv, ← h, hr]

/-- A partial sum over terms that are all present succeeds. -/
theorem sumTerms?_isSome {f : String → Option α} :
    ∀ {vs : List String}, (∀ v ∈ vs, (f v).isSome = true) →
      (sumTerms? f vs).isSome = true := by
  intro vs
  induction vs with
  | nil => intro _; simp [sumTerms?]
  | cons v vs ih =>
    intro h
    have hv : (f v).isSome = true := h v (List.mem_cons_self v vs)
    cases hfv : f v with
    | none => rw [hfv] at hv; simp at hv
    | some t =>
      have hrest := ih fun v' hv' => h v' (List.mem_cons_of_mem v hv')
      cases hr : sumTerms? f vs with
      | none => rw [hr] at hrest; simp at hrest
      | some r => simp [sumTerms?, hfv, hr]

/-- A partial sum whose first term is missing fails. -/
theorem sumTerms?_none_head {β : Type} [Add β] [Zero β] {f : String → Option β}
    {v : String} {vs : List String}
    (h : f v = none) : sumTerms? f (v :: vs) = none := by
  simp [sumTerms?, h]

/-- A successful direct-indexed dot product evaluates to the total weighted
sum. -/
theorem dotProduct?_eq {coeff : CoeffMap α} {vars : List String} {a : Assignment} {q : α}
    (h : dotProduct? coeff vars a = some q) : q = lhsVal coeff vars a := by
  obtain ⟨hall, hq⟩ := sumTerms?_some h
  rw [hq, lhsVal]
  congr 1
  apply List.map_congr_left
  intro v hv
  have := hall v hv
  cases hc : coeff.lookup v with
  | none => rw [hc] at this; simp at this
  | some c =>
    cases hx : a.lookup v with
    | none => rw [hc, hx] at this; simp at this
    | some x => simp [hc, hx]

/-- The direct-indexed dot product succeeds on total inputs and computes
the weighted sum. -/
theorem dotProduct?_total {coeff : CoeffMap α} {vars : List String} {a : Assignment}
    (h : ∀ v ∈ vars, (coeff.lookup v).isSome = true ∧ (a.lookup v).isSome = true) :
    dotProduct? coeff vars a = some (lhsVal coeff vars a) := by
  have hs : (dotProduct? coeff vars a).isSome = true := by
    apply sumTerms?_isSome
    intro v hv
    obtain ⟨h1, h2⟩ := h v hv
    cases hc : coeff.lookup v with
    | none => rw [hc] at h1; simp at h1
    | some c =>
      cases hx : a.lookup v with
      | none => rw [hx] at h2; simp at h2
      | some x => simp [hc, hx]
  cases hd : dotProduct? coeff vars a with
  | none => rw [hd] at hs; simp at hs
  | some q => rw [dotProduct?_eq hd]

/-- The `.get(v, 0)`-style lhs succeeds on a complete assignment and
computes the weighted sum. -/
theorem lhsSense?_complete {coeff : CoeffMap α} {vars : List String} {a : Assignment}
    (h : ∀ v ∈ vars, (a.lookup v).isSome = true) :
    lhsSense? coeff vars a = some (lhsVal coeff vars a) := by
  have hs : (lhsSense? coeff vars a).isSome = true := by
    apply sumTerms?_isSome
    intro v hv
    cases hx : a.lookup v with
    | none => have := h v hv; rw [hx] at this; simp at this
    | some x => simp [hx]
  cases hd : lhsSense? coeff vars a with
  | none => rw [hd] at hs; simp at hs
  | some q =>
    obtain ⟨hall, hq⟩ := sumTerms?_some hd
    congr 1
    rw [hq, lhsVal]
    congr 1
    apply List.map_congr_left
    intro v hv
    cases hx : a.lookup v with
    | none => have := h v hv; rw [hx] at this; simp at this
    | some x => simp [hx]

/-! ### The enumerated grid: every trial is a complete assignment -/

/-- Every combo has one value per bound. -/
theorem combos_length {step : Nat} :
    ∀ {bounds : List Nat} {c : List Nat}, c ∈ combos step bounds → c.length = bounds.length := by
  intro bounds
  induction bounds with
  | nil => intro c hc; simp [combos] at hc; simp [hc]
  | cons ub rest ih =>
    intro c hc
    simp only [combos, List.mem_flatMap, List.mem_map] at hc
    obtain ⟨x, _, c', hc', rfl⟩ := hc
    simp [ih hc']

/-- Looking a declared key up in a zip of keys with equally many values
succeeds. -/
theorem lookup_zip_isSome :
    ∀ {names : List String} {vals : List Nat}, names.length = vals.length →
      ∀ v ∈ names, (((names.zip vals).lookup v)).isSome = true := by
  intro names
  induction names with
  | nil => intro vals _ v hv; cases hv
  | cons n ns ih =>
    intro vals hlen v hv
    cases vals with
    | nil => simp at hlen
    | cons x xs =>
      by_cases hvn : v = n
      · simp [List.lookup, hvn]
      · have hmem : v ∈ ns := by
          rcases List.mem_cons.mp hv with h | h
          · exact absurd h hvn
          · exact h
        have := ih (Nat.succ_injective hlen) v hmem
        simp only [List.zip_cons_cons, List.lookup]
        have hbeq : (v == n) = false := by
          exact beq_false_of_ne hvn
        rw [hbeq]
        exact this

/-- An assignment is complete for `lp` when every declared variable can be
looked up in it. -/
abbrev Complete (lp : LP α) (a : Assignment) : Prop :=
  ∀ v ∈ varNames lp, (a.lookup v).isSome = true

omit [LinearOrderedCommRing α] in
/-- Every enumerated trial is complete. -/
theorem trials_complete {lp : LP α} {step : Nat} :
    ∀ a ∈ trials lp step, Complete lp a := by
  intro a ha
  simp only [trials, List.mem_map] at ha
  obtain ⟨c, hc, rfl⟩ := ha
  intro v hv
  apply lookup_zip_isSome _ v hv
  have h1 := combos_length hc
  simp [varNames, boundsOf] at h1 ⊢
  omega

/-! ### Feasibility: total characterizations -/

/-- Whether `con` is violated by the complete assignment `a`, exactly the
test of `_feasible`. -/
def violatesB (vars : List String) (a : Assignment) (con : Constraint α) : Bool :=
  (senseOf con == "<=" && decide (lhsVal con.coeff vars a > con.rhs)) ||
    (senseOf con == ">=" && decide (lhsVal con.coeff vars a < con.rhs)) ||
    (senseOf con == "=" && decide (lhsVal con.coeff vars a ≠ con.rhs))

/-- The sense-aware feasibility verdict on a complete assignment. -/
def feasB (lp : LP α) (a : Assignment) : Bool :=
  lp.constraints.all fun con => ! violatesB (varNames lp) a con

/-- On a complete assignment, `_feasible` succeeds and returns the
conjunction of the per-constraint sense tests. -/
theorem _feasible_eval {vars : List String} {a : Assignment}
    (hc : ∀ v ∈ vars, (a.lookup v).isSome = true) :
    ∀ cons : List (Constraint α),
      _feasible a cons vars = some (cons.all fun con => ! violatesB vars a con) := by
  intro cons
  induction cons with
  | nil => simp [_feasible]
  | cons con rest ih =>
    simp only [_feasible, lhsSense?_complete hc, Option.bind_eq_bind, Option.some_bind]
    by_cases hv : violatesB vars a con = true
    · have hv' : (senseOf con == "<=" && decide (lhsVal con.coeff vars a > con.rhs) ||
          (senseOf con == ">=" && decide (lhsVal con.coeff vars a < con.rhs)) ||
          (senseOf con == "=" && decide (lhsVal con.coeff vars a ≠ con.rhs))) = true := hv
      rw [if_pos hv']
      simp [List.all_cons, hv]
    · have hv' : ¬ ((senseOf con == "<=" && decide (lhsVal con.coeff vars a > con.rhs) ||
          (senseOf con == ">=" && decide (lhsVal con.coeff vars a < con.rhs)) ||
          (senseOf con == "=" && decide (lhsVal con.coeff vars a ≠ con.rhs))) = true) := hv
      rw [if_neg hv']
      have hvB : violatesB vars a con = false := by
        simpa using hv
      simp [List.all_cons, hvB, ih]

/-- `_feasible` on a complete assignment computes `feasB`. -/
theorem _feasible_feasB {lp : LP α} {a : Assignment} (hc : Complete lp a) :
    _feasible a lp.constraints (varNames lp) = some (feasB lp a) :=
  _feasible_eval hc lp.constraints

/-- The plain solver's feasibility loop on total inputs: it succeeds and
accepts exactly when every constraint satisfies `lhs <= rhs`, no matter
what sense each constraint declares. -/
theorem coreFeasible_eval {vars : List String} {a : Assignment} :
    ∀ cons : List (Constraint α),
      (∀ con ∈ cons, ∀ v ∈ vars,
        (con.coeff.lookup v).isSome = true ∧ (a.lookup v).isSome = true) →
      coreFeasible vars a cons =
        some (cons.all fun con => decide (lhsVal con.coeff vars a ≤ con.rhs)) := by
  intro cons
  induction cons with
  | nil => intro _; simp [coreFeasible]
  | cons con rest ih =>
    intro h
    have hdot : dotProduct? con.coeff vars a = some (lhsVal con.coeff vars a) :=
      dotProduct?_total (h con (List.mem_cons_self con rest))
    simp only [coreFeasible, hdot, Option.bind_eq_bind, Option.some_bind]
    by_cases hv : lhsVal con.coeff vars a > con.rhs
    · rw [if_pos hv]
      have : decide (lhsVal con.coeff vars a ≤ con.rhs) = false := by
        simp [not_le.mpr hv]
      simp [List.all_cons, this]
    · rw [if_neg hv]
      have hle : decide (lhsVal con.coeff vars a ≤ con.rhs) = true := by
        simp [not_lt.mp hv]
      rw [ih fun c hc => h c (List.mem_cons_of_mem con hc)]
      simp [List.all_cons, hle]

/-! ### The search order in the declared sense -/

/-- `x` is at most `y` in the declared objective sense (`≤` when
maximizing, `≥` otherwise). -/
def leSense (lp : LP α) (x y : α) : Prop :=
  if objSense lp = "max" then x ≤ y else y ≤ x

/-- `y` is strictly better than `x` in the declared objective sense:
exactly the comparison the friendly solver's update uses. -/
def ltSense (lp : LP α) (x y : α) : Prop :=
  if objSense lp = "max" then x < y else y < x

theorem leSense_refl (lp : LP α) (x : α) : leSense lp x x := by
  unfold leSense; split <;> exact le_refl x

theorem leSense_trans {lp : LP α} {x y z : α}
    (h1 : leSense lp x y) (h2 : leSense lp y z) : leSense lp x z := by
  unfold leSense at *
  split at h1 <;> rename_i hs
  · rw [if_pos hs] at h2 ⊢; exact le_trans h1 h2
  · rw [if_neg hs] at h2 ⊢; exact le_trans h2 h1

theorem ltSense_le {lp : LP α} {x y : α} (h : ltSense lp x y) : leSense lp x y := by
  unfold ltSense at h
  unfold leSense
  split at h <;> rename_i hs
  · rw [if_pos hs]; exact le_of_lt h
  · rw [if_neg hs]; exact le_of_lt h

theorem ltSense_trans {lp : LP α} {x y z : α}
    (h1 : ltSense lp x y) (h2 : ltSense lp y z) : ltSense lp x z := by
  unfold ltSense at *
  split at h1 <;> rename_i hs
  · rw [if_pos hs] at h2 ⊢; exact lt_trans h1 h2
  · rw [if_neg hs] at h2 ⊢; exact lt_trans h2 h1

theorem leSense_ltSense_trans {lp : LP α} {x y z : α}
    (h1 : leSense lp x y) (h2 : ltSense lp y z) : ltSense lp x z := by
  unfold leSense at h1
  unfold ltSense at *
  split at h1 <;> rename_i hs
  · rw [if_pos hs] at h2 ⊢; exact lt_of_le_of_lt h1 h2
  · rw [if_neg hs] at h2 ⊢; exact lt_of_lt_of_le h2 h1

theorem ltSense_leSense_trans {lp : LP α} {x y z : α}
    (h1 : ltSense lp x y) (h2 : leSense lp y z) : ltSense lp x z := by
  unfold leSense at h2
  unfold ltSense at *
  split at h1 <;> rename_i hs
  · rw [if_pos hs] at h2 ⊢; exact lt_of_lt_of_le h1 h2
  · rw [if_neg hs] at h2 ⊢; exact lt_of_le_of_lt h2 h1

theorem not_ltSense_leSense {lp : LP α} {x y : α} (h : ¬ ltSense lp x y) :
    leSense lp y x := by
  unfold ltSense at h
  unfold leSense
  split at h <;> rename_i hs
  · rw [if_pos hs]; exact not_lt.mp h
  · rw [if_neg hs]; exact not_lt.mp h

/-- The friendly update as a case analysis: the sentinel is always
replaced; otherwise replacement happens exactly on a strict improvement in
the declared sense. -/
theorem updBest_none (lp : LP α) (a : Assignment) (obj : α) :
    updBest lp none a obj = some (a, obj) := rfl

theorem updBest_some_lt {lp : LP α} {p : Assignment × α} {a : Assignment} {obj : α}
    (h : ltSense lp p.2 obj) : updBest lp (some p) a obj = some (a, obj) := by
  unfold updBest
  unfold ltSense at h
  split at h <;> rename_i hs
  · simp [hs, h]
  · simp [hs, h]

theorem updBest_some_not_lt {lp : LP α} {p : Assignment × α} {a : Assignment} {obj : α}
    (h : ¬ ltSense lp p.2 obj) : updBest lp (some p) a obj = some p := by
  unfold updBest
  unfold ltSense at h
  split at h <;> rename_i hs
  · simp [hs, h]
  · simp [hs, h]

/-- Case analysis of one friendly search step on a complete trial. -/
theorem searchStep_cases {lp : LP α} {best : Option (Assignment × α)} {a : Assignment}
    (hc : Complete lp a) {res : Option (Assignment × α)}
    (h : searchStep lp best a = some res) :
    (feasB lp a = false ∧ res = best) ∨
      (feasB lp a = true ∧ objOf? lp a = some (objVal lp a) ∧
        res = updBest lp best a (objVal lp a)) := by
  unfold searchStep at h
  rw [_feasible_feasB hc] at h
  cases hf : feasB lp a with
  | false =>
    rw [hf] at h
    simp at h
    exact Or.inl ⟨rfl, h.symm⟩
  | true =>
    rw [hf] at h
    simp only [Option.bind_eq_bind, Option.some_bind, if_true] at h
    cases ho : objOf? lp a with
    | none => rw [ho] at h; simp at h
    | some q =>
      rw [ho] at h
      simp at h
      have hq : q = objVal lp a := dotProduct?_eq ho
      subst hq
      exact Or.inr ⟨rfl, rfl, h.symm⟩

/-- Unfolding of the friendly search loop at a cons cell, conditioned on
overall success. -/
theorem searchLoop_cons_elim {lp : LP α} {a : Assignment} {rest : List Assignment}
    {best res : Option (Assignment × α)}
    (h : searchLoop lp (a :: rest) best = some res) :
    ∃ b, searchStep lp best a = some b ∧ searchLoop lp rest b = some res := by
  unfold searchLoop at h
  cases hs : searchStep lp best a with
  | none => rw [hs] at h; simp at h
  | some b =>
    rw [hs] at h
    simp at h
    exact ⟨b, rfl, h⟩

/-- If every enumerated trial is infeasible, the friendly loop ends with
its starting best record. -/
theorem searchLoop_infeasible {lp : LP α} :
    ∀ {ts : List Assignment}, (∀ a ∈ ts, Complete lp a) →
      (∀ a ∈ ts, feasB lp a = false) →
      ∀ best, searchLoop lp ts best = some best := by
  intro ts
  induction ts with
  | nil => intro _ _ best; rfl
  | cons a rest ih =>
    intro hc hf best
    have hstep : searchStep lp best a = some best := by
      unfold searchStep
      rw [_feasible_feasB (hc a (List.mem_cons_self a rest))]
      rw [hf a (List.mem_cons_self a rest)]
      rfl
    unfold searchLoop
    rw [hstep]
    simp only [Option.bind_eq_bind, Option.some_bind]
    exact ih (fun t ht => hc t (List.mem_cons_of_mem a ht))
      (fun t ht => hf t (List.mem_cons_of_mem a ht)) best

/-- Origin and dominance of the friendly search loop's result: the final
best record is the starting one or a feasible trial with its objective, it
never gets worse in the declared sense, and it dominates every feasible
trial of the list. -/
theorem searchLoop_dom {lp : LP α} :
    ∀ {ts : List Assignment} {best res : Option (Assignment × α)},
      (∀ a ∈ ts, Complete lp a) →
      searchLoop lp ts best = some res →
      (res = best ∨ ∃ a, a ∈ ts ∧ feasB lp a = true ∧ res = some (a, objVal lp a)) ∧
      (∀ p, best = some p → ∃ q, res = some q ∧ leSense lp p.2 q.2) ∧
      (∀ a ∈ ts, feasB lp a = true → ∃ q, res = some q ∧ leSense lp (objVal lp a) q.2) := by
  intro ts
  induction ts with
  | nil =>
    intro best res _ h
    have hres : res = best := by
      unfold searchLoop at h
      simpa using h.symm
    subst hres
    exact ⟨Or.inl rfl, fun p hp => ⟨p, hp, leSense_refl lp p.2⟩, by simp⟩
  | cons a rest ih =>
    intro best res hc h
    obtain ⟨b, hs, hrest⟩ := searchLoop_cons_elim h
    have hca : Complete lp a := hc a (List.mem_cons_self a rest)
    have hcr : ∀ t ∈ rest, Complete lp t := fun t ht => hc t (List.mem_cons_of_mem a ht)
    obtain ⟨horig, hbest, hdom⟩ := ih hcr hrest
    rcases searchStep_cases hca hs with ⟨hf, hb⟩ | ⟨hf, _, hb⟩
    · subst hb
      refine ⟨?_, hbest, ?_⟩
      · rcases horig with h' | ⟨t, ht, hft, h'⟩
        · exact Or.inl h'
        · exact Or.inr ⟨t, List.mem_cons_of_mem a ht, hft, h'⟩
      · intro t ht hft
        rcases List.mem_cons.mp ht with rfl | ht'
        · rw [hf] at hft; cases hft
        · exact hdom t ht' hft
    · have hfact1 : b = some (a, objVal lp a) ∨ b = best := by
        cases hbo : best with
        | none => rw [hbo] at hb; rw [hb, updBest_none]; exact Or.inl rfl
        | some p =>
          rw [hbo] at hb
          by_cases hlt : ltSense lp p.2 (objVal lp a)
          · rw [hb, updBest_some_lt hlt]; exact Or.inl rfl
          · rw [hb, updBest_some_not_lt hlt]; exact Or.inr rfl
      have hfact2 : ∀ p, best = some p → ∃ pb, b = some pb ∧ leSense lp p.2 pb.2 := by
        intro p hp
        rw [hp] at hb
        by_cases hlt : ltSense lp p.2 (objVal lp a)
        · rw [hb, updBest_some_lt hlt]
          exact ⟨(a, objVal lp a), rfl, ltSense_le hlt⟩
        · rw [hb, updBest_some_not_lt hlt]
          exact ⟨p, rfl, leSense_refl lp p.2⟩
      have hfact3 : ∃ pb, b = some pb ∧ leSense lp (objVal lp a) pb.2 := by
        cases hbo : best with
        | none =>
          rw [hbo] at hb; rw [hb, updBest_none]
          exact ⟨(a, objVal lp a), rfl, leSense_refl lp (objVal lp a)⟩
        | some p =>
          rw [hbo] at hb
          by_cases hlt : ltSense lp p.2 (objVal lp a)
          · rw [hb, updBest_some_lt hlt]
            exact ⟨(a, objVal lp a), rfl, leSense_refl lp (objVal lp a)⟩
          · rw [hb, updBest_some_not_lt hlt]
            exact ⟨p, rfl, not_ltSense_leSense hlt⟩
      refine ⟨?_, ?_, ?_⟩
      · rcases horig with h' | ⟨t, ht, hft, h'⟩
        · rcases hfact1 with h'' | h''
          · exact Or.inr ⟨a, List.mem_cons_self a rest, hf, by rw [h', h'']⟩
          · exact Or.inl (by rw [h', h''])
        · exact Or.inr ⟨t, List.mem_cons_of_mem a ht, hft, h'⟩
      · intro p hp
        obtain ⟨pb, hpb, hle⟩ := hfact2 p hp
        obtain ⟨q, hq, hle'⟩ := hbest pb hpb
        exact ⟨q, hq, leSense_trans hle hle'⟩
      · intro t ht hft
        rcases List.mem_cons.mp ht with rfl | ht'
        · obtain ⟨pb, hpb, hle⟩ := hfact3
          obtain ⟨q, hq, hle'⟩ := hbest pb hpb
          exact ⟨q, hq, leSense_trans hle hle'⟩
        · exact hdom t ht' hft

/-- First-wins structure of the friendly search: either no trial ever beat
the starting best, or the result is the objective of some feasible trial
that strictly beat the starting best and is strictly better (in the
declared sense) than every feasible trial enumerated before it — the
consequence of the strict inequality in the comparison. -/
theorem searchLoop_first {lp : LP α} :
    ∀ {ts : List Assignment} {best res : Option (Assignment × α)},
      (∀ a ∈ ts, Complete lp a) →
      searchLoop lp ts best = some res →
      (res = best ∧ ∀ a ∈ ts, feasB lp a = true →
          ∃ p, best = some p ∧ ¬ ltSense lp p.2 (objVal lp a)) ∨
      (∃ a pre suf, ts = pre ++ a :: suf ∧ feasB lp a = true ∧
        res = some (a, objVal lp a) ∧
        (∀ p, best = some p → ltSense lp p.2 (objVal lp a)) ∧
        (∀ t ∈ pre, feasB lp t = true → ltSense lp (objVal lp t) (objVal lp a))) := by
  intro ts
  induction ts with
  | nil =>
    intro best res _ h
    have hres : res = best := by
      unfold searchLoop at h
      simpa using h.symm
    exact Or.inl ⟨hres, by simp⟩
  | cons a rest ih =>
    intro best res hc h
    obtain ⟨b, hs, hrest⟩ := searchLoop_cons_elim h
    have hca : Complete lp a := hc a (List.mem_cons_self a rest)
    have hcr : ∀ t ∈ rest, Complete lp t := fun t ht => hc t (List.mem_cons_of_mem a ht)
    rcases searchStep_cases hca hs with ⟨hf, hb⟩ | ⟨hf, _, hb⟩
    · subst hb
      rcases ih hcr hrest with ⟨hres, hall⟩ | ⟨a', pre, suf, hsplit, hf', hres, hbc, hpre⟩
      · refine Or.inl ⟨hres, ?_⟩
        intro t ht hft
        rcases List.mem_cons.mp ht with rfl | ht'
        · rw [hf] at hft; cases hft
        · exact hall t ht' hft
      · refine Or.inr ⟨a', a :: pre, suf, by rw [hsplit, List.cons_append], hf', hres, hbc, ?_⟩
        intro t ht hft
        rcases List.mem_cons.mp ht with rfl | ht'
        · rw [hf] at hft; cases hft
        · exact hpre t ht' hft
    · by_cases hkeep : ∃ p0, best = some p0 ∧ ¬ ltSense lp p0.2 (objVal lp a)
      · obtain ⟨p0, hp0, hnlt⟩ := hkeep
        have hbb : b = best := by rw [hp0] at hb ⊢; rw [hb, updBest_some_not_lt hnlt]
        subst hbb
        rcases ih hcr hrest with ⟨hres, hall⟩ | ⟨a', pre, suf, hsplit, hf', hres, hbc, hpre⟩
        · refine Or.inl ⟨hres, ?_⟩
          intro t ht hft
          rcases List.mem_cons.mp ht with rfl | ht'
          · exact ⟨p0, hp0, hnlt⟩
          · exact hall t ht' hft
        · refine Or.inr ⟨a', a :: pre, suf, by rw [hsplit, List.cons_append], hf', hres, hbc, ?_⟩
          intro t ht hft
          rcases List.mem_cons.mp ht with rfl | ht'
          · have h1 : ltSense lp p0.2 (objVal lp a') := hbc p0 hp0
            have h2 : leSense lp (objVal lp t) p0.2 := not_ltSense_leSense hnlt
            exact leSense_ltSense_trans h2 h1
          · exact hpre t ht' hft
      · have hrepl : ∀ p, best = some p → ltSense lp p.2 (objVal lp a) := by
          intro p hp
          by_contra hn
          exact hkeep ⟨p, hp, hn⟩
        have hbb : b = some (a, objVal lp a) := by
          cases hbo : best with
          | none => rw [hbo] at hb; rw [hb, updBest_none]
          | some p =>
            rw [hbo] at hb
            rw [hb, updBest_some_lt (hrepl p hbo)]
        subst hbb
        rcases ih hcr hrest with ⟨hres, _⟩ | ⟨a', pre, suf, hsplit, hf', hres, hbc, hpre⟩
        · exact Or.inr ⟨a, [], rest, rfl, hf, hres, hrepl, by simp⟩
        · refine Or.inr ⟨a', a :: pre, suf, by rw [hsplit, List.cons_append], hf', hres, ?_, ?_⟩
          · intro p hp
            have h1 : ltSense lp (objVal lp a) (objVal lp a') :=
              hbc (a, objVal lp a) rfl
            exact ltSense_trans (hrepl p hp) h1
          · intro t ht hft
            rcases List.mem_cons.mp ht with rfl | ht'
            · exact hbc (t, objVal lp t) rfl
            · exact hpre t ht' hft

/-! ### The friendly report builder on total inputs -/

/-- The value of one friendly report row on a complete assignment. -/
def reportRowVal (vars : List String) (a : Assignment) (con : Constraint α) : ReportRow α :=
  ⟨con.name, lhsVal con.coeff vars a, con.rhs, senseOf con,
    if senseOf con = "<=" then con.rhs - lhsVal con.coeff vars a
    else if senseOf con = ">=" then lhsVal con.coeff vars a - con.rhs
    else 0⟩

/-- On a complete assignment the friendly report builder succeeds and emits
one `reportRowVal` row per constraint, in order. -/
theorem buildReport_complete {vars : List String} {a : Assignment}
    (hc : ∀ v ∈ vars, (a.lookup v).isSome = true) :
    ∀ cons : List (Constraint α),
      buildReport vars a cons = some (cons.map (reportRowVal vars a)) := by
  intro cons
  induction cons with
  | nil => simp [buildReport]
  | cons con rest ih =>
    simp only [buildReport, reportRow?, lhsSense?_complete hc, Option.bind_eq_bind,
      Option.some_bind, ih, List.map_cons]
    rfl

/-! ### The plain (core) loop on an infeasible grid -/

/-- If every trial fails the plain `lhs <= rhs` test, the plain loop keeps
the sentinel best record to the end. -/
theorem coreLoop_infeasible {lp : LP α} :
    ∀ {ts : List Assignment},
      (∀ a ∈ ts, coreFeasible (varNames lp) a lp.constraints = some false) →
      ∀ best, coreLoop lp ts best = some best := by
  intro ts
  induction ts with
  | nil => intro _ best; rfl
  | cons a rest ih =>
    intro hf best
    unfold coreLoop
    rw [hf a (List.mem_cons_self a rest)]
    simp only [Option.bind_eq_bind, Option.some_bind, if_neg (by simp : ¬ (false = true))]
    exact ih (fun t ht => hf t (List.mem_cons_of_mem a ht)) best

/-- The plain report loop raises on the sentinel best record as soon as
there is a declared variable (not itself named `"objective"`) and a
constraint: the first term of the first row's sum fails its lookup in the
sentinel dict `{"objective": -inf}`. -/
theorem coreReport_sentinel {lp : LP α} {con : Constraint α} {rest : List (Constraint α)}
    (hvars : varNames lp ≠ []) (hobjname : "objective" ∉ varNames lp) :
    coreReport (varNames lp) (coreBestDict (none : Option (Assignment × α))) (con :: rest) = none := by
  cases hv : varNames lp with
  | nil => exact absurd hv hvars
  | cons v vs =>
    have hvne : v ≠ "objective" := by
      intro h
      apply hobjname
      rw [hv, h]
      exact List.mem_cons_self _ _
    have hdot : coreReportLhs? con.coeff (v :: vs)
        (coreBestDict (none : Option (Assignment × α))) = none := by
      apply sumTerms?_none_head
      cases hcl : con.coeff.lookup v with
      | none => simp [hcl]
      | some c =>
        have hlk : (coreBestDict (none : Option (Assignment × α))).lookup v =
            (none : Option (WithBot α)) := by
          simp [coreBestDict, List.lookup, beq_false_of_ne hvne]
        simp [hcl, hlk]
    simp only [coreReport, hv, hdot]
    rfl

/-! ### The stochastic sampler -/

/-- Every drawn trial pairs the declared variables, in order, with values
inside their inclusive bounds. -/
theorem sampleTrial_forall2 {draw : Nat → Nat → Nat → Nat}
    (hdraw : ∀ i j u, draw i j u ≤ u) (i : Nat) :
    ∀ (vs : List VarSpec) (j : Nat),
      List.Forall₂ (fun (p : String × Nat) (vd : VarSpec) => p.1 = vd.name ∧ p.2 ≤ vd.ub)
        (sampleTrial draw i j vs) vs := by
  intro vs
  induction vs with
  | nil => intro j; simp [sampleTrial]
  | cons vd rest ih =>
    intro j
    simp only [sampleTrial]
    exact List.Forall₂.cons ⟨rfl, hdraw i j vd.ub⟩ (ih (j + 1))

/-- Every row the sampler's loop collects is a drawn trial that passed the
plain feasibility test, with its objective attached. -/
theorem sampleLoop_mem {lp : LP α} {draw : Nat → Nat → Nat → Nat} :
    ∀ {n i : Nat} {rows : List (SampleRow α)},
      sampleLoop lp draw n i = some rows →
      ∀ r ∈ rows, (∃ j, r.assign = sampleTrial draw j 0 lp.vars) ∧
        coreFeasible (varNames lp) r.assign lp.constraints = some true ∧
        objOf? lp r.assign = some r.objective := by
  intro n
  induction n with
  | zero =>
    intro i rows h r hr
    simp [sampleLoop] at h
    subst h
    cases hr
  | succ n ih =>
    intro i rows h r hr
    unfold sampleLoop at h
    simp only [] at h
    cases hfe : coreFeasible (varNames lp) (sampleTrial draw i 0 lp.vars) lp.constraints with
    | none => rw [hfe] at h; simp at h
    | some feas =>
      rw [hfe] at h
      simp only [Option.bind_eq_bind, Option.some_bind] at h
      cases feas with
      | false =>
        simp only [Bool.false_eq_true, if_false] at h
        exact ih h r hr
      | true =>
        simp only [if_true] at h
        cases hobj : objOf? lp (sampleTrial draw i 0 lp.vars) with
        | none => rw [hobj] at h; simp at h
        | some obj =>
          rw [hobj] at h
          cases hrest : sampleLoop lp draw n (i + 1) with
          | none => rw [hrest] at h; simp at h
          | some rs =>
            rw [hrest] at h
            simp at h
            subst h
            rcases List.mem_cons.mp hr with rfl | hr'
            · exact ⟨⟨i, rfl⟩, hfe, hobj⟩
            · exact ih hrest r hr'

/-! ### Claim theorems -/

/-- Per-constraint reading of non-violation for the three documented
senses. -/
theorem not_violatesB_iff {vars : List String} {a : Assignment} {con : Constraint α}
    (hs : con.sense = none ∨ con.sense = some "<=" ∨ con.sense = some ">=" ∨
      con.sense = some "=") :
    (! violatesB vars a con) = true ↔
      ((senseOf con = "<=" → lhsVal con.coeff vars a ≤ con.rhs) ∧
        (senseOf con = ">=" → con.rhs ≤ lhsVal con.coeff vars a) ∧
        (senseOf con = "=" → lhsVal con.coeff vars a = con.rhs)) := by
  rcases hs with h | h | h | h <;>
    simp [violatesB, senseOf, h, not_lt, not_le]

/-- Claim C2: on a complete assignment, the sense-aware feasibility
evaluator `_feasible` returns a boolean that is `true` exactly when every
constraint passes its sense-specific test (`lhs ≤ rhs` for `"<="`,
`lhs ≥ rhs` for `">="`, `lhs = rhs` for `"="`), where `lhs` is the
coefficient-weighted sum over all declared variables with missing
coefficients counting as zero (`lhsVal`), and an unspecified sense
defaults to `"<="`. -/
theorem feasibility_evaluator_sense_iff (a : Assignment) (cons : List (Constraint α))
    (vars : List String)
    (hc : ∀ v ∈ vars, (a.lookup v).isSome = true)
    (hs : ∀ con ∈ cons, con.sense = none ∨ con.sense = some "<=" ∨
      con.sense = some ">=" ∨ con.sense = some "=") :
    ∃ b, _feasible a cons vars = some b ∧
      (b = true ↔ ∀ con ∈ cons,
        (senseOf con = "<=" → lhsVal con.coeff vars a ≤ con.rhs) ∧
        (senseOf con = ">=" → con.rhs ≤ lhsVal con.coeff vars a) ∧
        (senseOf con = "=" → lhsVal con.coeff vars a = con.rhs)) ∧
      (∀ con ∈ cons, con.sense = none → senseOf con = "<=") := by
  refine ⟨_, _feasible_eval hc cons, ?_, ?_⟩
  · rw [List.all_eq_true]
    constructor
    · intro hall con hcon
      exact (not_violatesB_iff (hs con hcon)).mp (hall con hcon)
    · intro hall con hcon
      exact (not_violatesB_iff (hs con hcon)).mpr (hall con hcon)
  · intro con _ hnone
    simp [senseOf, hnone]

/-- A successful friendly solve is exactly a successful search whose best
record feeds the report builder. -/
theorem friendly_ok_elim {lp : LP α} {step : Nat} {a : Assignment} {obj : α}
    {rep : List (ReportRow α)}
    (h : brute_force_lp_friendly lp step = .ok (a, obj, rep)) :
    searchLoop lp (trials lp step) none = some (some (a, obj)) ∧
      buildReport (varNames lp) a lp.constraints = some rep := by
  unfold brute_force_lp_friendly at h
  cases hres : searchLoop lp (trials lp step) none with
  | none => rw [hres] at h; cases h
  | some best =>
    rw [hres] at h
    cases best with
    | none => cases h
    | some p =>
      obtain ⟨a0, obj0⟩ := p
      simp only [] at h
      cases hrep : buildReport (varNames lp) a0 lp.constraints with
      | none => rw [hrep] at h; cases h
      | some rows =>
        rw [hrep] at h
        simp only [Except.ok.injEq, Prod.mk.injEq] at h
        obtain ⟨h1, h2, h3⟩ := h
        subst h1
        subst h2
        subst h3
        exact ⟨hres ▸ rfl, hrep⟩

/-- Claim C1: whatever the sense-aware exhaustive searcher
`brute_force_lp_friendly` returns is a feasible trial of the enumerated
grid whose objective value it carries, and that value is the true maximum
(sense `max`) or true minimum (sense `min`) of the objective over all
feasible grid trials. -/
theorem exhaustive_searcher_optimal (lp : LP α) (step : Nat)
    (hstep : 0 < step) (hnodup : (varNames lp).Nodup)
    (hobjname : "objective" ∉ varNames lp)
    (a : Assignment) (obj : α) (rep : List (ReportRow α))
    (h : brute_force_lp_friendly lp step = .ok (a, obj, rep)) :
    a ∈ trials lp step ∧ feasB lp a = true ∧ obj = objVal lp a ∧
      (objSense lp = "max" → ∀ t ∈ trials lp step, feasB lp t = true →
        objVal lp t ≤ obj) ∧
      (objSense lp = "min" → ∀ t ∈ trials lp step, feasB lp t = true →
        obj ≤ objVal lp t) := by
  obtain ⟨hloop, -⟩ := friendly_ok_elim h
  obtain ⟨horig, -, hdom⟩ := searchLoop_dom trials_complete hloop
  have hmem : a ∈ trials lp step ∧ feasB lp a = true ∧ obj = objVal lp a := by
    rcases horig with h' | ⟨t, ht, hft, h'⟩
    · cases h'
    · injection h' with h1
      injection h1 with ha hobj
      subst ha
      exact ⟨ht, hft, hobj⟩
  refine ⟨hmem.1, hmem.2.1, hmem.2.2, ?_, ?_⟩
  · intro hmax t ht hft
    obtain ⟨q, hq, hle⟩ := hdom t ht hft
    have hq' : q = (a, obj) := by
      injection hq with hq'
      exact hq'.symm
    rw [hq'] at hle
    unfold leSense at hle
    rw [if_pos hmax] at hle
    exact hle
  · intro hmin t ht hft
    obtain ⟨q, hq, hle⟩ := hdom t ht hft
    have hq' : q = (a, obj) := by
      injection hq with hq'
      exact hq'.symm
    rw [hq'] at hle
    unfold leSense at hle
    rw [if_neg (by rw [hmin]; decide)] at hle
    exact hle

/-- Claim C3: when no trial of the enumerated grid is feasible, the
sense-aware exhaustive searcher raises the distinct, catchable
`ValueError("No feasible solution found.")` (`Err.infeasible`), which is a
different condition from a `KeyError`; in particular it never returns a
result. -/
theorem exhaustive_searcher_infeasible_error (lp : LP α) (step : Nat)
    (hstep : 0 < step) (hnodup : (varNames lp).Nodup)
    (hinf : ∀ t ∈ trials lp step, feasB lp t = false) :
    brute_force_lp_friendly lp step = .error .infeasible ∧
      Err.infeasible ≠ Err.keyError ∧
      ∀ res, brute_force_lp_friendly lp step ≠ .ok res := by
  have hloop := searchLoop_infeasible trials_complete hinf
    (none : Option (Assignment × α))
  unfold brute_force_lp_friendly
  rw [hloop]
  exact ⟨rfl, by decide, fun res h => by cases h⟩

/-- Claim C7: the best assignment the sense-aware exhaustive searcher
returns occurs in the enumeration-order trial list, and every feasible
trial enumerated strictly before it has a strictly worse objective in the
declared sense — so when several feasible grid assignments attain the
optimum, the one found first in enumeration order is returned, a
consequence of the strict inequality in the best-so-far comparison. -/
theorem exhaustive_searcher_tie_break_first (lp : LP α) (step : Nat)
    (hstep : 0 < step) (hnodup : (varNames lp).Nodup)
    (hobjname : "objective" ∉ varNames lp)
    (a : Assignment) (obj : α) (rep : List (ReportRow α))
    (h : brute_force_lp_friendly lp step = .ok (a, obj, rep))
    (htie : ∃ t1 t2, t1 ∈ trials lp step ∧ t2 ∈ trials lp step ∧ t1 ≠ t2 ∧
      feasB lp t1 = true ∧ feasB lp t2 = true ∧
      objVal lp t1 = obj ∧ objVal lp t2 = obj) :
    feasB lp a = true ∧ obj = objVal lp a ∧
      ∃ pre suf, trials lp step = pre ++ a :: suf ∧
        ∀ t ∈ pre, feasB lp t = true → ltSense lp (objVal lp t) obj := by
  obtain ⟨hloop, -⟩ := friendly_ok_elim h
  rcases searchLoop_first trials_complete hloop with ⟨habs, -⟩ | hfound
  · cases habs
  · obtain ⟨a', pre, suf, hsplit, hf', hres, -, hpre⟩ := hfound
    have h1 : a = a' ∧ obj = objVal lp a' := by
      injection hres with hres'
      exact Prod.mk.injEq .. ▸ hres'
    obtain ⟨ha, hobj⟩ := h1
    subst ha
    refine ⟨hf', hobj, pre, suf, hsplit, ?_⟩
    intro t ht hft
    rw [hobj]
    exact hpre t ht hft

/-- Claim C6: on a complete chosen assignment the friendly report builder
succeeds with exactly one row per constraint, in constraint order, and each
row's slack is `rhs - lhs` for sense `"<="`, `lhs - rhs` for `">="`, and
`0` for `"="`, with `lhs` recomputed as the coefficient-weighted sum over
all declared variables. -/
theorem report_builder_slack (lp : LP α) (a : Assignment) (hc : Complete lp a) :
    ∃ rows, buildReport (varNames lp) a lp.constraints = some rows ∧
      rows = lp.constraints.map (reportRowVal (varNames lp) a) ∧
      rows.length = lp.constraints.length ∧
      ∀ con ∈ lp.constraints,
        (reportRowVal (varNames lp) a con).lhs = lhsVal con.coeff (varNames lp) a ∧
        (reportRowVal (varNames lp) a con).rhs = con.rhs ∧
        (reportRowVal (varNames lp) a con).sense = senseOf con ∧
        (senseOf con = "<=" →
          (reportRowVal (varNames lp) a con).slack =
            con.rhs - lhsVal con.coeff (varNames lp) a) ∧
        (senseOf con = ">=" →
          (reportRowVal (varNames lp) a con).slack =
            lhsVal con.coeff (varNames lp) a - con.rhs) ∧
        (senseOf con = "=" → (reportRowVal (varNames lp) a con).slack = 0) := by
  refine ⟨_, buildReport_complete hc lp.constraints, rfl, by simp, ?_⟩
  intro con hcon
  refine ⟨rfl, rfl, rfl, ?_, ?_, ?_⟩ <;> intro hs <;> simp [reportRowVal, hs]

/-- Claim C9: the plain solver's feasibility loop applies the single test
`lhs <= rhs` to every constraint, whatever sense the constraint declares:
on total inputs it accepts exactly when all constraints have `lhs ≤ rhs`,
and overwriting every declared sense (e.g. with `">="` or `"="`) does not
change its verdict. -/
theorem plain_solver_ignores_sense (vars : List String) (a : Assignment)
    (cons : List (Constraint α))
    (h : ∀ con ∈ cons, ∀ v ∈ vars,
      (con.coeff.lookup v).isSome = true ∧ (a.lookup v).isSome = true) :
    coreFeasible vars a cons =
      some (cons.all fun con => decide (lhsVal con.coeff vars a ≤ con.rhs)) ∧
      (coreFeasible vars a cons = some true ↔
        ∀ con ∈ cons, lhsVal con.coeff vars a ≤ con.rhs) ∧
      ∀ s : Option String,
        coreFeasible vars a (cons.map fun con => ⟨con.name, con.coeff, s, con.rhs⟩) =
          coreFeasible vars a cons := by
  have h1 := coreFeasible_eval cons h
  refine ⟨h1, ?_, ?_⟩
  · rw [h1]
    simp [List.all_eq_true]
  · intro s
    have hmap : ∀ con ∈ (cons.map fun con =>
        (⟨con.name, con.coeff, s, con.rhs⟩ : Constraint α)), ∀ v ∈ vars,
        (con.coeff.lookup v).isSome = true ∧ (a.lookup v).isSome = true := by
      intro con hcon v hv
      obtain ⟨c0, hc0, rfl⟩ := List.mem_map.mp hcon
      exact h c0 hc0 v hv
    have h2 := @coreFeasible_eval α _ vars a
      (cons.map fun con => ⟨con.name, con.coeff, s, con.rhs⟩) hmap
    rw [h1, h2, List.all_map]
    rfl

/-- Claim C10 as amended: when the model has at least one variable and at
least one constraint, no declared variable is literally named
`"objective"`, and no grid trial passes the plain feasibility test, the
plain solver `brute_force_lp` does not return its sentinel best record:
building the report indexes each declared variable into the sentinel
(whose only key is `"objective"`), the first lookup fails, and the whole
call raises a `KeyError` (`none`) instead of returning.  Without the
`"objective"` naming guard the claim is false — see the
counterexample. -/
theorem plain_solver_sentinel_keyerror (lp : LP α) (step : Nat)
    (hvars : lp.vars ≠ []) (hcons : lp.constraints ≠ [])
    (hobjname : "objective" ∉ varNames lp)
    (hinf : ∀ t ∈ trials lp step,
      coreFeasible (varNames lp) t lp.constraints = some false) :
    brute_force_lp lp step = none := by
  have hloop := coreLoop_infeasible hinf (none : Option (Assignment × α))
  unfold brute_force_lp
  rw [hloop]
  simp only [Option.bind_eq_bind, Option.some_bind]
  have hv : varNames lp ≠ [] := by
    simp only [varNames, ne_eq, List.map_eq_nil_iff]
    exact hvars
  cases hcl : lp.constraints with
  | nil => exact absurd hcl hcons
  | cons con rest =>
    rw [coreReport_sentinel hv hobjname]
    rfl

/-- Claim C8 as amended: when every declared variable appears in the
objective's coefficient mapping (and the assignment is complete), the
objective evaluation succeeds and returns the coefficient-weighted sum
over all declared variables; it is the missing-coefficient case, not
covered here, that fails with a key lookup error (see the
counterexample). -/
theorem objective_eval_total_coeffs (coeff : CoeffMap α) (vars : List String)
    (a : Assignment)
    (hco : ∀ v ∈ vars, (coeff.lookup v).isSome = true)
    (hc : ∀ v ∈ vars, (a.lookup v).isSome = true) :
    dotProduct? coeff vars a = some (lhsVal coeff vars a) :=
  dotProduct?_total fun v hv => ⟨hco v hv, hc v hv⟩

/-- A model whose declared variable `x` is absent from the objective's
coefficient mapping. -/
def lpMissingObjCoeff : LP ℤ :=
  ⟨[⟨"x", 0⟩], ⟨none, []⟩, []⟩

/-- Claim C8, counterexample: with a declared variable absent from the
objective's coefficient mapping, the objective evaluation does *not*
succeed with the missing coefficient treated as zero — it fails with a key
lookup error (`none`), and the whole friendly solve raises a `KeyError`. -/
theorem objective_eval_missing_coeff_fails :
    objOf? lpMissingObjCoeff [("x", 0)] = none ∧
      objOf? lpMissingObjCoeff [("x", 0)] ≠ some 0 ∧
      brute_force_lp_friendly lpMissingObjCoeff 1 = .error .keyError := by
  refine ⟨rfl, ?_, rfl⟩
  intro h
  cases h

/-- A model on which no sampled assignment can be feasible: the only
constraint demands `0 <= -1`. -/
def lpNoFeasibleDraw : LP ℤ :=
  ⟨[⟨"x", 0⟩], ⟨none, [("x", 1)]⟩, [⟨"c", [("x", 0)], none, -1⟩]⟩

/-- Claim C5, evaluated at a failing input: with one draw and no feasible
assignment the loop collects zero rows (`some []`), and the final
`sort_values("objective")` on the resulting empty DataFrame raises a
`KeyError` — the sampler signals an error instead of returning an empty
sequence. -/
theorem sampler_empty_sort_keyerror :
    sampleLoop lpNoFeasibleDraw (fun _ _ _ => 0) 1 0 = some [] ∧
      sample_lp lpNoFeasibleDraw 1 (fun _ _ _ => 0) = .error .keyError ∧
      ∀ rows, sample_lp lpNoFeasibleDraw 1 (fun _ _ _ => 0) ≠ .ok rows := by
  refine ⟨rfl, rfl, ?_⟩
  intro rows h
  cases h

/-- Claim C4 as amended: whatever list of rows the stochastic sampler
returns (for any model, sample count, and abstract in-bounds generator
standing for the seeded RNG) has at most 10 rows; each row is a drawn
assignment that pairs the declared variables, in order, with values in
`[0, ub]`, passes the sampler's *sense-blind plain test* (`lhs <= rhs`
for every constraint, whatever sense it declares — not §4.1's sense-aware
test, see the counterexample), and carries its objective value; and the
rows are sorted by objective descending regardless of the objective's
declared sense. -/
theorem sampler_top10_feasible_sorted (lp : LP α) (n : Nat)
    (draw : Nat → Nat → Nat → Nat)
    (hdraw : ∀ i j u, draw i j u ≤ u)
    (hnodup : (varNames lp).Nodup) (hobjname : "objective" ∉ varNames lp)
    (rows : List (SampleRow α))
    (h : sample_lp lp n draw = .ok rows) :
    rows.length ≤ 10 ∧
      (∀ r ∈ rows,
        coreFeasible (varNames lp) r.assign lp.constraints = some true ∧
        objOf? lp r.assign = some r.objective ∧
        List.Forall₂ (fun (p : String × Nat) (vd : VarSpec) =>
          p.1 = vd.name ∧ p.2 ≤ vd.ub) r.assign lp.vars) ∧
      rows.Pairwise (fun r1 r2 => r2.objective ≤ r1.objective) := by
  unfold sample_lp at h
  cases hloop : sampleLoop lp draw n 0 with
  | none => rw [hloop] at h; cases h
  | some rows0 =>
    rw [hloop] at h
    simp only [] at h
    by_cases hemp : rows0.isEmpty
    · rw [if_pos hemp] at h; cases h
    · rw [if_neg hemp] at h
      injection h with h
      subst h
      refine ⟨?_, ?_, ?_⟩
      · rw [List.length_take]
        exact min_le_left 10 _
      · intro r hr
        have hr1 : r ∈ rows0.insertionSort sampleLE := List.take_subset 10 _ hr
        have hr0 : r ∈ rows0 := (List.mem_insertionSort sampleLE).mp hr1
        obtain ⟨⟨j, hj⟩, hfe, hobj⟩ := sampleLoop_mem hloop r hr0
        refine ⟨hfe, hobj, ?_⟩
        rw [hj]
        exact sampleTrial_forall2 hdraw j lp.vars 0
      · have hsorted : (rows0.insertionSort sampleLE).Pairwise sampleLE :=
          List.sorted_insertionSort sampleLE rows0
        exact List.Pairwise.sublist (List.take_sublist 10 _) hsorted

/-! ### Concrete witness models (over `ℤ`) -/

/-- Maximize `x` subject to `x <= 1` with `x ∈ {0, 1, 2}`. -/
def lpA : LP ℤ := ⟨[⟨"x", 2⟩], ⟨none, [("x", 1)]⟩, [⟨"c", [("x", 1)], none, 1⟩]⟩

/-- A constant objective over `x ∈ {0, 1}`: two optimal feasible trials. -/
def lpTie : LP ℤ := ⟨[⟨"x", 1⟩], ⟨none, [("x", 0)]⟩, []⟩

/-- `x >= 2` cannot hold for `x ∈ {0, 1}`: sense-aware infeasibility. -/
def lpInfeasible : LP ℤ :=
  ⟨[⟨"x", 1⟩], ⟨none, [("x", 1)]⟩, [⟨"c", [("x", 1)], some ">=", 2⟩]⟩

/-- `x <= -1` cannot hold for `x ∈ {0}`: plain-test infeasibility. -/
def lpCoreInfeasible : LP ℤ :=
  ⟨[⟨"x", 0⟩], ⟨none, [("x", 1)]⟩, [⟨"c", [("x", 1)], none, -1⟩]⟩

/-- One unconstrained variable `x ∈ {0, …, 3}` for the sampler. -/
def lpSampler : LP ℤ := ⟨[⟨"x", 3⟩], ⟨none, [("x", 2)]⟩, []⟩

/-- Three constraints, one of each sense, for the report builder. -/
def lpReport : LP ℤ :=
  ⟨[⟨"x", 1⟩], ⟨none, [("x", 1)]⟩,
    [⟨"a", [("x", 2)], none, 3⟩, ⟨"b", [("x", 1)], some ">=", 0⟩,
      ⟨"e", [("x", 1)], some "=", 1⟩]⟩

/-- Witness for claim C1 on `lpA`: the solver returns `x = 1` with
objective `1`, and that value dominates all feasible grid trials. -/
theorem exhaustive_searcher_optimal_witness :
    (0 < 1 ∧ (varNames lpA).Nodup ∧ "objective" ∉ varNames lpA ∧
      brute_force_lp_friendly lpA 1 =
        .ok ([("x", 1)], (1 : ℤ), [⟨"c", 1, 1, "<=", 0⟩])) ∧
    ([("x", 1)] ∈ trials lpA 1 ∧ feasB lpA [("x", 1)] = true ∧
      (1 : ℤ) = objVal lpA [("x", 1)] ∧
      (objSense lpA = "max" → ∀ t ∈ trials lpA 1, feasB lpA t = true →
        objVal lpA t ≤ 1) ∧
      (objSense lpA = "min" → ∀ t ∈ trials lpA 1, feasB lpA t = true →
        1 ≤ objVal lpA t)) :=
  ⟨⟨Nat.one_pos, by decide, by decide, by rfl⟩,
    exhaustive_searcher_optimal lpA 1 Nat.one_pos (by decide) (by decide)
      [("x", 1)] 1 [⟨"c", 1, 1, "<=", 0⟩] (by rfl)⟩

/-- Constraints of each sense for the feasibility-evaluator witness. -/
def consW : List (Constraint ℤ) :=
  [⟨"a", [("x", 1)], none, 2⟩, ⟨"b", [("x", 1)], some ">=", 1⟩,
    ⟨"e", [("x", 1)], some "=", 1⟩]

/-- Witness for claim C2 on the assignment `x = 1` and one constraint of
each sense. -/
theorem feasibility_evaluator_sense_iff_witness :
    ((∀ v ∈ ["x"], ((([("x", 1)] : Assignment)).lookup v).isSome = true) ∧
      (∀ con ∈ consW, con.sense = none ∨ con.sense = some "<=" ∨
        con.sense = some ">=" ∨ con.sense = some "=")) ∧
    (∃ b, _feasible [("x", 1)] consW ["x"] = some b ∧
      (b = true ↔ ∀ con ∈ consW,
        (senseOf con = "<=" → lhsVal con.coeff ["x"] [("x", 1)] ≤ con.rhs) ∧
        (senseOf con = ">=" → con.rhs ≤ lhsVal con.coeff ["x"] [("x", 1)]) ∧
        (senseOf con = "=" → lhsVal con.coeff ["x"] [("x", 1)] = con.rhs)) ∧
      (∀ con ∈ consW, con.sense = none → senseOf con = "<=")) :=
  ⟨⟨by decide, by decide⟩,
    feasibility_evaluator_sense_iff [("x", 1)] consW ["x"] (by decide) (by decide)⟩

/-- Witness for claim C3 on `lpInfeasible` (`x >= 2` with `x ∈ {0, 1}`). -/
theorem exhaustive_searcher_infeasible_error_witness :
    (0 < 1 ∧ (varNames lpInfeasible).Nodup ∧
      (∀ t ∈ trials lpInfeasible 1, feasB lpInfeasible t = false)) ∧
    (brute_force_lp_friendly lpInfeasible 1 = .error .infeasible ∧
      Err.infeasible ≠ Err.keyError ∧
      ∀ res, brute_force_lp_friendly lpInfeasible 1 ≠ .ok res) :=
  ⟨⟨Nat.one_pos, by decide, by decide⟩,
    exhaustive_searcher_infeasible_error lpInfeasible 1 Nat.one_pos
      (by decide) (by decide)⟩

/-- Witness for claim C4 on `lpSampler` with the constant-zero generator
and one draw: the sampler returns the single feasible row. -/
theorem sampler_top10_feasible_sorted_witness :
    ((∀ i j u : Nat, (fun _ _ _ => 0 : Nat → Nat → Nat → Nat) i j u ≤ u) ∧
      (varNames lpSampler).Nodup ∧ "objective" ∉ varNames lpSampler ∧
      sample_lp lpSampler 1 (fun _ _ _ => 0) = .ok [⟨[("x", 0)], 0⟩]) ∧
    (([⟨[("x", 0)], 0⟩] : List (SampleRow ℤ)).length ≤ 10 ∧
      (∀ r ∈ ([⟨[("x", 0)], 0⟩] : List (SampleRow ℤ)),
        coreFeasible (varNames lpSampler) r.assign lpSampler.constraints = some true ∧
        objOf? lpSampler r.assign = some r.objective ∧
        List.Forall₂ (fun (p : String × Nat) (vd : VarSpec) =>
          p.1 = vd.name ∧ p.2 ≤ vd.ub) r.assign lpSampler.vars) ∧
      ([⟨[("x", 0)], 0⟩] : List (SampleRow ℤ)).Pairwise
        (fun r1 r2 => r2.objective ≤ r1.objective)) :=
  ⟨⟨fun _ _ u => Nat.zero_le u, by decide, by decide, by rfl⟩,
    sampler_top10_feasible_sorted lpSampler 1 (fun _ _ _ => 0)
      (fun _ _ u => Nat.zero_le u) (by decide) (by decide)
      [⟨[("x", 0)], 0⟩] (by rfl)⟩

/-- Witness for claim C6 on `lpReport` at the complete assignment
`x = 1`. -/
theorem report_builder_slack_witness :
    Complete lpReport [("x", 1)] ∧
    (∃ rows, buildReport (varNames lpReport) [("x", 1)] lpReport.constraints =
        some rows ∧
      rows = lpReport.constraints.map (reportRowVal (varNames lpReport) [("x", 1)]) ∧
      rows.length = lpReport.constraints.length ∧
      ∀ con ∈ lpReport.constraints,
        (reportRowVal (varNames lpReport) [("x", 1)] con).lhs =
          lhsVal con.coeff (varNames lpReport) [("x", 1)] ∧
        (reportRowVal (varNames lpReport) [("x", 1)] con).rhs = con.rhs ∧
        (reportRowVal (varNames lpReport) [("x", 1)] con).sense = senseOf con ∧
        (senseOf con = "<=" →
          (reportRowVal (varNames lpReport) [("x", 1)] con).slack =
            con.rhs - lhsVal con.coeff (varNames lpReport) [("x", 1)]) ∧
        (senseOf con = ">=" →
          (reportRowVal (varNames lpReport) [("x", 1)] con).slack =
            lhsVal con.coeff (varNames lpReport) [("x", 1)] - con.rhs) ∧
        (senseOf con = "=" →
          (reportRowVal (varNames lpReport) [("x", 1)] con).slack = 0)) :=
  ⟨by decide, report_builder_slack lpReport [("x", 1)] (by decide)⟩

/-- Witness for claim C7 on `lpTie`: both trials are optimal and the first
one (`x = 0`) is returned. -/
theorem exhaustive_searcher_tie_break_first_witness :
    (0 < 1 ∧ (varNames lpTie).Nodup ∧ "objective" ∉ varNames lpTie ∧
      brute_force_lp_friendly lpTie 1 = .ok ([("x", 0)], (0 : ℤ), []) ∧
      (∃ t1 t2, t1 ∈ trials lpTie 1 ∧ t2 ∈ trials lpTie 1 ∧ t1 ≠ t2 ∧
        feasB lpTie t1 = true ∧ feasB lpTie t2 = true ∧
        objVal lpTie t1 = (0 : ℤ) ∧ objVal lpTie t2 = (0 : ℤ))) ∧
    (feasB lpTie [("x", 0)] = true ∧ (0 : ℤ) = objVal lpTie [("x", 0)] ∧
      ∃ pre suf, trials lpTie 1 = pre ++ [("x", 0)] :: suf ∧
        ∀ t ∈ pre, feasB lpTie t = true → ltSense lpTie (objVal lpTie t) 0) :=
  ⟨⟨Nat.one_pos, by decide, by decide, by rfl,
      ⟨[("x", 0)], [("x", 1)], by decide, by decide, by decide, by decide,
        by decide, by decide, by decide⟩⟩,
    exhaustive_searcher_tie_break_first lpTie 1 Nat.one_pos (by decide)
      (by decide) [("x", 0)] 0 [] (by rfl)
      ⟨[("x", 0)], [("x", 1)], by decide, by decide, by decide, by decide,
        by decide, by decide, by decide⟩⟩

/-- Witness for claim C8 (amended) on a one-variable model with the
objective coefficient present. -/
theorem objective_eval_total_coeffs_witness :
    ((∀ v ∈ ["x"], ((([("x", 2)] : CoeffMap ℤ)).lookup v).isSome = true) ∧
      (∀ v ∈ ["x"], ((([("x", 3)] : Assignment)).lookup v).isSome = true)) ∧
    dotProduct? ([("x", 2)] : CoeffMap ℤ) ["x"] [("x", 3)] =
      some (lhsVal ([("x", 2)] : CoeffMap ℤ) ["x"] [("x", 3)]) :=
  ⟨⟨by decide, by decide⟩,
    objective_eval_total_coeffs [("x", 2)] ["x"] [("x", 3)] (by decide) (by decide)⟩

/-- Witness for claim C9: the plain test accepts by `lhs <= rhs` and is
blind to the declared `">="` sense. -/
theorem plain_solver_ignores_sense_witness :
    (∀ con ∈ ([⟨"c", [("x", 1)], some ">=", 3⟩] : List (Constraint ℤ)),
      ∀ v ∈ ["x"], (con.coeff.lookup v).isSome = true ∧
        ((([("x", 2)] : Assignment)).lookup v).isSome = true) ∧
    (coreFeasible ["x"] [("x", 2)] ([⟨"c", [("x", 1)], some ">=", 3⟩] : List (Constraint ℤ)) =
      some (([⟨"c", [("x", 1)], some ">=", 3⟩] : List (Constraint ℤ)).all
        fun con => decide (lhsVal con.coeff ["x"] [("x", 2)] ≤ con.rhs)) ∧
      (coreFeasible ["x"] [("x", 2)] ([⟨"c", [("x", 1)], some ">=", 3⟩] : List (Constraint ℤ)) =
          some true ↔
        ∀ con ∈ ([⟨"c", [("x", 1)], some ">=", 3⟩] : List (Constraint ℤ)),
          lhsVal con.coeff ["x"] [("x", 2)] ≤ con.rhs) ∧
      ∀ s : Option String,
        coreFeasible ["x"] [("x", 2)]
            (([⟨"c", [("x", 1)], some ">=", 3⟩] : List (Constraint ℤ)).map
              fun con => ⟨con.name, con.coeff, s, con.rhs⟩) =
          coreFeasible ["x"] [("x", 2)]
            ([⟨"c", [("x", 1)], some ">=", 3⟩] : List (Constraint ℤ))) :=
  ⟨by decide,
    plain_solver_ignores_sense ["x"] [("x", 2)]
      [⟨"c", [("x", 1)], some ">=", 3⟩] (by decide)⟩

/-- Witness for the amended claim C10 on `lpCoreInfeasible` (`x <= -1`
with `x ∈ {0}`). -/
theorem plain_solver_sentinel_keyerror_witness :
    (lpCoreInfeasible.vars ≠ [] ∧ lpCoreInfeasible.constraints ≠ [] ∧
      "objective" ∉ varNames lpCoreInfeasible ∧
      (∀ t ∈ trials lpCoreInfeasible 1,
        coreFeasible (varNames lpCoreInfeasible) t lpCoreInfeasible.constraints =
          some false)) ∧
    brute_force_lp lpCoreInfeasible 1 = none :=
  ⟨⟨by decide, by decide, by decide, by decide⟩,
    plain_solver_sentinel_keyerror lpCoreInfeasible 1 (by decide) (by decide)
      (by decide) (by decide)⟩

/-- A sampler model with a `>=` constraint the plain test cannot see:
`x >= 3` over `x ∈ [0, 5]`. -/
def lpSenseSampler : LP ℤ :=
  ⟨[⟨"x", 5⟩], ⟨none, [("x", 1)]⟩, [⟨"c", [("x", 1)], some ">=", 3⟩]⟩

/-- Claim C4, counterexample to the original statement: with the in-bounds
constant-zero generator the sampler returns the row `x = 0`, which
violates the declared `x >= 3` constraint under the sense-aware
feasibility test of §4.1 — returned rows are only plain-test feasible. -/
theorem sampler_returns_sense_infeasible_row :
    sample_lp lpSenseSampler 1 (fun _ _ _ => 0) = .ok [⟨[("x", 0)], 0⟩] ∧
      (∀ i j u : Nat, (fun _ _ _ => 0 : Nat → Nat → Nat → Nat) i j u ≤ u) ∧
      feasB lpSenseSampler [("x", 0)] = false ∧
      _feasible [("x", 0)] lpSenseSampler.constraints (varNames lpSenseSampler) =
        some false :=
  ⟨rfl, fun _ _ u => Nat.zero_le u, by decide, by decide⟩

/-- A plainly infeasible model whose single variable is literally named
`objective`, colliding with the sentinel's only key. -/
def lpObjectiveVar : LP ℤ :=
  ⟨[⟨"objective", 0⟩], ⟨none, [("objective", 1)]⟩,
    [⟨"c", [("objective", 1)], none, -1⟩]⟩

/-- Claim C10, counterexample to the original statement: `lpObjectiveVar`
has a variable, a constraint, and no trial passing the plain test, yet
`brute_force_lp` *returns* — the report's `best["objective"]` lookup hits
the sentinel's `-inf` entry (`⊥`), computes `1 * -inf = -inf`, and the
call ends normally with the sentinel best record instead of raising. -/
theorem plain_solver_sentinel_returns_for_objective_var :
    lpObjectiveVar.vars ≠ [] ∧ lpObjectiveVar.constraints ≠ [] ∧
      (∀ t ∈ trials lpObjectiveVar 1,
        coreFeasible (varNames lpObjectiveVar) t lpObjectiveVar.constraints =
          some false) ∧
      brute_force_lp lpObjectiveVar 1 = some (none, [⟨"c", ⊥, -1⟩]) ∧
      brute_force_lp lpObjectiveVar 1 ≠ none :=
  ⟨by decide, by decide, by decide, by rfl, by decide⟩
